import Mathlib

/-!
Verification of the value-set analysis core declared in
`src/Ghidra/Features/Decompiler/src/decompile/cpp/rangeutil.hh`.

The header defines the `CircleRange` class (a circular interval with stride over
the machine integers mod 2^n) together with several inline member functions, and
the `ValueSetSolver` with its inline `partitionPrepend` helpers.  The C++ type
`uintb` is a 64-bit unsigned integer; its arithmetic is embedded as natural
number arithmetic taken explicitly modulo 2^64, and the bitwise AND with `mask`
is embedded with `Nat.land` (written `&&&`).  Functions whose bodies live in the
(absent) `rangeutil.cc` are modelled from the spec and marked as such.
-/

/-- Shallow embedding of the `CircleRange` data members (header lines 49-53):
`left` and `right` boundaries, the size `mask`, the `isempty` flag and the
positive `step`.  `uintb` fields become `Nat`; the `int4` step is positive in
every reachable state, so it is also a `Nat`. -/
structure CircleRange where
  left : Nat
  right : Nat
  mask : Nat
  isempty : Bool
  step : Nat
deriving DecidableEq

namespace CircleRange

/-- `isEmpty` (line 69): `return isempty;`. -/
def isEmpty (cr : CircleRange) : Bool := cr.isempty

/-- `isFull` (line 70): `return ((!isempty) && (step == 1) && (left == right));`. -/
def isFull (cr : CircleRange) : Bool :=
  (!cr.isempty) && (cr.step == 1) && (cr.left == cr.right)

/-- `isSingle` (line 71): `return (!isempty) && (right == ((left + step)& mask));`.
The C++ sum `left + step` is a `uintb` sum, hence taken mod 2^64. -/
def isSingle (cr : CircleRange) : Bool :=
  (!cr.isempty) && (cr.right == (((cr.left + cr.step) % 2 ^ 64) &&& cr.mask))

/-- `getMin` (line 72): `return left;`. -/
def getMin (cr : CircleRange) : Nat := cr.left

/-- `getMax` (line 73): `return (right-step)&mask;`.  The C++ difference
`right - step` is a `uintb` difference, hence taken mod 2^64; in `Nat` it is
written `(2^64 + right - step) % 2^64`, which agrees with the machine value
whenever `right < 2^64` and `step ≤ 2^64`. -/
def getMax (cr : CircleRange) : Nat :=
  ((2 ^ 64 + cr.right - cr.step) % 2 ^ 64) &&& cr.mask

/-- `getEnd` (line 74): `return right;`. -/
def getEnd (cr : CircleRange) : Nat := cr.right

/-- `getStep` (line 77): `return step;`. -/
def getStep (cr : CircleRange) : Nat := cr.step

/-- `getNext` (line 80): `val = (val+step)&mask; return (val!=right);`.
Returns the advanced value together with the continuation flag. -/
def getNext (cr : CircleRange) (val : Nat) : Nat × Bool :=
  let val' := ((val + cr.step) % 2 ^ 64) &&& cr.mask
  (val', val' != cr.right)

/-- `operator==` (lines 207-213): empty ranges compare equal regardless of the
other fields; otherwise all four fields are compared. -/
def rangeEqual (a b : CircleRange) : Bool :=
  if a.isempty != b.isempty then false
  else if a.isempty then true
  else (a.left == b.left) && (a.right == b.right) && (a.mask == b.mask) && (a.step == b.step)

/-- `encodeRangeOverlaps` (lines 234-244): build the six-bit relation vector of
the boundary comparisons and look it up in the `arrange` table.  The table is
declared in the header (line 54) but its 64 entries are defined in the missing
`rangeutil.cc`, so the table is taken as a parameter. -/
def encodeRangeOverlaps (arrange : List Char) (op1left op1right op2left op2right : Nat) : Char :=
  let val : Nat := if op1left ≤ op1right then 0x20 else 0
  let val := val ||| (if op1left ≤ op2left then 0x10 else 0)
  let val := val ||| (if op1left ≤ op2right then 0x8 else 0)
  let val := val ||| (if op1right ≤ op2left then 4 else 0)
  let val := val ||| (if op1right ≤ op2right then 2 else 0)
  let val := val ||| (if op2left ≤ op2right then 1 else 0)
  arrange.getD val (Char.ofNat 0)

/-- The iteration protocol documented in the header comment (lines 43-47):
`val = range.getMin(); do { } while(range.getNext(val));`.  The returned list
records the value of `val` at each execution of the do-while body; `fuel`
bounds the number of body executions so the function is total. -/
def iterList (cr : CircleRange) (val : Nat) : Nat → List Nat
  | 0 => []
  | fuel + 1 =>
    let p := cr.getNext val
    if p.2 then val :: cr.iterList p.1 fuel else [val]

/-- Modelled from the spec: `getSize` is declared at header line 76 but
implemented in the missing `rangeutil.cc`.  Spec section 4.1.4 describes it as
the cardinality of the range, an empty range iterating zero times and a full
range `(mask+1)/step` times: the cardinality is the circular distance from
`left` to `right` divided by `step`, read as the whole circle when the
boundaries coincide. -/
def getSize (cr : CircleRange) : Nat :=
  if cr.isempty then 0
  else
    let d := (cr.mask + 1 + cr.right - cr.left) % (cr.mask + 1)
    if d = 0 then (cr.mask + 1) / cr.step else d / cr.step

/-- Modelled from the spec: `setFull(size)` is declared at header line 68 but
implemented in the missing `rangeutil.cc`.  Spec sections 3 and 4.1 describe
the full range of `size` bytes as `left = right = 0`, `step = 1`, with
`mask = 2^(8*size) - 1`. -/
def setFull (size : Nat) : CircleRange :=
  { left := 0, right := 0, mask := 2 ^ (8 * size) - 1, isempty := false, step := 1 }

/-- The empty range produced by the default constructor (line 62), with the
meaningless fields fixed to zero-like values for the embedding. -/
def emptyRange : CircleRange :=
  { left := 0, right := 0, mask := 0, isempty := true, step := 1 }

/-- The representation invariants of a `CircleRange` over `n` bits
(spec section 3): `mask = 2^n - 1` with `n ≤ 64`, boundaries below the modulus,
and a positive step dividing both the modulus and the circular distance from
`left` to `right`. -/
structure WellFormed (cr : CircleRange) (n : Nat) : Prop where
  mask_eq : cr.mask = 2 ^ n - 1
  n_le : n ≤ 64
  left_lt : cr.left < 2 ^ n
  right_lt : cr.right < 2 ^ n
  step_pos : 0 < cr.step
  step_dvd_mod : cr.step ∣ 2 ^ n
  step_dvd_dist : cr.step ∣ (2 ^ n + cr.right - cr.left) % 2 ^ n

/-- The circular distance from `left` to `right` over `n` bits. -/
def circDist (cr : CircleRange) (n : Nat) : Nat :=
  (2 ^ n + cr.right - cr.left) % 2 ^ n

/-- The number of do-while body executions of the iteration protocol over `n`
bits: the circular distance divided by the step, read as the whole circle when
the distance is zero. -/
def iterCount (cr : CircleRange) (n : Nat) : Nat :=
  if circDist cr n = 0 then 2 ^ n / cr.step else circDist cr n / cr.step

end CircleRange

/-- The closed opcode enumeration the core consumes (spec section 6). -/
inductive OpCode where
  | COPY
  | INT_ADD
  | INT_SUB
  | INT_MULT
  | INT_AND
  | INT_OR
  | INT_XOR
  | INT_LEFT
  | INT_RIGHT
  | INT_SRIGHT
  | INT_2COMP
  | INT_NEGATE
  | INT_ZEXT
  | INT_SEXT
  | SUBPIECE
  | INT_EQUAL
  | INT_NOTEQUAL
  | INT_LESS
  | INT_SLESS
  | INT_LESSEQUAL
  | CBRANCH
  | MULTIEQUAL
deriving DecidableEq

/-- The binary opcodes the spec calls additive or multiplicative
(spec section 4.1.6); every other binary opcode is treated as non-linear. -/
def isLinearBinary : OpCode → Bool
  | .INT_ADD => true
  | .INT_SUB => true
  | .INT_MULT => true
  | _ => false

/-- Modelled from the spec: `pushForwardBinary` is declared at header line 93
but implemented in the missing `rangeutil.cc`.  Spec section 4.1.6: additive
operators preserve stride and shift boundaries; multiplicative operators may
widen stride, bounded by `maxStep`; non-linear operators return the full range
of the output size; the binary form never fails.  The C++ `bool` status is
returned together with the resulting range; empty inputs give an empty
result. -/
def pushForwardBinary (opc : OpCode) (in1 in2 : CircleRange)
    (inSize outSize maxStep : Nat) : Bool × CircleRange :=
  if in1.isempty || in2.isempty then (true, CircleRange.emptyRange)
  else
    match opc with
    | .INT_ADD =>
        if in2.isSingle then
          (true, { left := (in1.left + in2.left) &&& in1.mask,
                   right := (in1.right + in2.left) &&& in1.mask,
                   mask := in1.mask, isempty := false, step := in1.step })
        else (true, CircleRange.setFull outSize)
    | .INT_SUB =>
        if in2.isSingle then
          (true, { left := (in1.left + (in1.mask + 1) - (in2.left &&& in1.mask)) &&& in1.mask,
                   right := (in1.right + (in1.mask + 1) - (in2.left &&& in1.mask)) &&& in1.mask,
                   mask := in1.mask, isempty := false, step := in1.step })
        else (true, CircleRange.setFull outSize)
    | .INT_MULT =>
        if in2.isSingle then
          if 0 < in1.step * in2.left ∧ (in1.mask + 1) % (in1.step * in2.left) = 0 ∧
              in1.step * in2.left ≤ maxStep then
            (true, { left := (in1.left * in2.left) &&& in1.mask,
                     right := (in1.right * in2.left) &&& in1.mask,
                     mask := in1.mask, isempty := false, step := in1.step * in2.left })
          else (true, CircleRange.setFull outSize)
        else (true, CircleRange.setFull outSize)
    | _ => (true, CircleRange.setFull outSize)

/-- Shallow embedding of the `Partition` class (lines 142-151): the `startNode`
and `stopNode` pointers become optional `ValueSet` identifiers (`none` is the
C++ null pointer) and `isDirty` stays a flag.  The `next` pointer field of all
`ValueSet` nodes is modelled separately as a map from identifier to optional
identifier. -/
structure Partition where
  startNode : Option Nat
  stopNode : Option Nat
  isDirty : Bool
deriving DecidableEq

/-- `ValueSetSolver::partitionPrepend(ValueSet *vertex, Partition &part)`
(lines 248-255): link `vertex` in front of `part`'s chain, make it the new
`startNode`, and set `stopNode` to it when the partition was empty.  Returns
the updated `next`-pointer map together with the updated partition. -/
def partitionPrepend (vertex : Nat) (nexts : Nat → Option Nat) (part : Partition) :
    (Nat → Option Nat) × Partition :=
  (fun v => if v = vertex then part.startNode else nexts v,
   { startNode := some vertex,
     stopNode := if part.stopNode = none then some vertex else part.stopNode,
     isDirty := part.isDirty })

/-- `ValueSetSolver::partitionPrepend(const Partition &head, Partition &part)`
(lines 259-266): `head.stopNode->next = part.startNode;` then
`part.startNode = head.startNode;` and `stopNode` is replaced when null.  The
unconditional dereference of `head.stopNode` is modelled by returning `none`
(the null-dereference branch) when `head.stopNode` is null. -/
def partitionPrependWhole (head : Partition) (nexts : Nat → Option Nat) (part : Partition) :
    Option ((Nat → Option Nat) × Partition) :=
  match head.stopNode with
  | none => none
  | some sn =>
      some (fun v => if v = sn then part.startNode else nexts v,
            { startNode := head.startNode,
              stopNode := if part.stopNode = none then head.stopNode else part.stopNode,
              isDirty := part.isDirty })

namespace CircleRange

theorem mask_add_one (cr : CircleRange) (n : Nat) (hm : cr.mask = 2 ^ n - 1) :
    cr.mask + 1 = 2 ^ n := by
  have := Nat.two_pow_pos n
  omega

theorem getNext_fst (cr : CircleRange) (n : Nat) (hm : cr.mask = 2 ^ n - 1) (hn : n ≤ 64)
    (val : Nat) : (cr.getNext val).1 = (val + cr.step) % 2 ^ n := by
  show ((val + cr.step) % 2 ^ 64) &&& cr.mask = (val + cr.step) % 2 ^ n
  rw [hm, Nat.and_pow_two_sub_one_eq_mod, Nat.mod_mod_of_dvd _ (Nat.pow_dvd_pow 2 hn)]

end CircleRange

namespace CircleRange

theorem orIdx6 (b1 b2 b3 b4 b5 b6 : Bool) :
    (((((cond b1 (32:Nat) 0 ||| cond b2 16 0) ||| cond b3 8 0) ||| cond b4 4 0) |||
        cond b5 2 0) ||| cond b6 1 0) =
      cond b1 32 0 + cond b2 16 0 + cond b3 8 0 + cond b4 4 0 + cond b5 2 0 + cond b6 1 0 ∧
    cond b1 (32:Nat) 0 + cond b2 16 0 + cond b3 8 0 + cond b4 4 0 + cond b5 2 0 +
      cond b6 1 0 < 64 := by
  revert b1 b2 b3 b4 b5 b6
  decide

end CircleRange

/-- C1: for every `CircleRange` and value `val`, `getNext(val)` advances `val`
to `(val + step) mod (mask+1)` and returns true if and only if the advanced
value differs from `right`; hence the iteration protocol started at
`val = getMin()` terminates exactly when `val` reaches `right`. -/
theorem getNext_advances_mod (cr : CircleRange) (n : Nat)
    (hm : cr.mask = 2 ^ n - 1) (hn : n ≤ 64) (val : Nat) :
    (cr.getNext val).1 = (val + cr.step) % (cr.mask + 1) ∧
    ((cr.getNext val).2 = true ↔ (val + cr.step) % (cr.mask + 1) ≠ cr.right) ∧
    ((cr.getNext val).2 = false ↔ (cr.getNext val).1 = cr.right) := by
  have h1 := cr.getNext_fst n hm hn val
  have h2 : cr.mask + 1 = 2 ^ n := cr.mask_add_one n hm
  have hsnd : (cr.getNext val).2 = ((cr.getNext val).1 != cr.right) := rfl
  refine ⟨by rw [h1, h2], ?_, ?_⟩
  · rw [hsnd, bne_iff_ne, h1, h2]
  · rw [hsnd]
    simp

/-- Witness for C1 at the range `[0,2) mask=3 step=1` and `val = 0`. -/
theorem getNext_advances_mod_witness :
    (3 : Nat) = 2 ^ 2 - 1 ∧ 2 ≤ 64 ∧
    (((⟨0, 2, 3, false, 1⟩ : CircleRange).getNext 0).1 = (0 + 1) % (3 + 1) ∧
     (((⟨0, 2, 3, false, 1⟩ : CircleRange).getNext 0).2 = true ↔ (0 + 1) % (3 + 1) ≠ 2) ∧
     (((⟨0, 2, 3, false, 1⟩ : CircleRange).getNext 0).2 = false ↔
       ((⟨0, 2, 3, false, 1⟩ : CircleRange).getNext 0).1 = 2)) :=
  ⟨by decide, by decide, getNext_advances_mod ⟨0, 2, 3, false, 1⟩ 2 (by decide) (by decide) 0⟩

/-- C2: `encodeRangeOverlaps(l, r, l', r')` computes the six-bit vector of the
comparisons `(l≤r, l≤l', l≤r', r≤l', r≤r', l'≤r')`, with `l≤r` contributing the
most significant bit 0x20 and `l'≤r'` the least significant bit 1, and returns
the entry of the 64-entry `arrange` table at that index. -/
theorem encodeRangeOverlaps_spec (arrange : List Char) (l r l' r' : Nat) :
    CircleRange.encodeRangeOverlaps arrange l r l' r' =
      arrange.getD
        ((if l ≤ r then 32 else 0) + (if l ≤ l' then 16 else 0) + (if l ≤ r' then 8 else 0) +
         (if r ≤ l' then 4 else 0) + (if r ≤ r' then 2 else 0) + (if l' ≤ r' then 1 else 0))
        (Char.ofNat 0) ∧
    (if l ≤ r then 32 else 0) + (if l ≤ l' then 16 else 0) + (if l ≤ r' then 8 else 0) +
      (if r ≤ l' then 4 else 0) + (if r ≤ r' then 2 else 0) +
      (if l' ≤ r' then 1 else 0) < 64 := by
  constructor
  · show arrange.getD _ _ = arrange.getD _ _
    congr 1
    simp only [← Bool.cond_decide]
    exact (CircleRange.orIdx6 _ _ _ _ _ _).1
  · simp only [← Bool.cond_decide]
    exact (CircleRange.orIdx6 _ _ _ _ _ _).2

/-- C5: `isFull()` returns true if and only if the range is non-empty, the
step equals 1, and `left` equals `right`. -/
theorem isFull_spec (cr : CircleRange) :
    cr.isFull = true ↔ (cr.isempty = false ∧ cr.step = 1 ∧ cr.left = cr.right) := by
  simp [CircleRange.isFull, and_assoc]

/-- C6: `isSingle()` returns true if and only if the range is non-empty and
`right` equals `(left + step) & mask`. -/
theorem isSingle_spec (cr : CircleRange) (n : Nat) (hm : cr.mask = 2 ^ n - 1) (hn : n ≤ 64) :
    cr.isSingle = true ↔
      (cr.isempty = false ∧ cr.right = (cr.left + cr.step) &&& cr.mask) := by
  have key : ((cr.left + cr.step) % 2 ^ 64) &&& cr.mask = (cr.left + cr.step) &&& cr.mask := by
    rw [hm, Nat.and_pow_two_sub_one_eq_mod, Nat.and_pow_two_sub_one_eq_mod,
      Nat.mod_mod_of_dvd _ (Nat.pow_dvd_pow 2 hn)]
  unfold CircleRange.isSingle
  rw [key]
  simp

/-- Witness for C6 at the single-value range `[0,1) mask=3 step=1`. -/
theorem isSingle_spec_witness :
    (3 : Nat) = 2 ^ 2 - 1 ∧ 2 ≤ 64 ∧
    ((⟨0, 1, 3, false, 1⟩ : CircleRange).isSingle = true ↔
      ((⟨0, 1, 3, false, 1⟩ : CircleRange).isempty = false ∧
       (1 : Nat) = (0 + 1) &&& 3)) :=
  ⟨by decide, by decide, isSingle_spec ⟨0, 1, 3, false, 1⟩ 2 (by decide) (by decide)⟩

/-- C8: `operator==` returns true when both ranges are empty regardless of the
other fields, false when exactly one is empty, and otherwise compares all four
fields. -/
theorem rangeEqual_spec (a b : CircleRange) :
    CircleRange.rangeEqual a b = true ↔
      ((a.isempty = true ∧ b.isempty = true) ∨
       (a.isempty = false ∧ b.isempty = false ∧ a.left = b.left ∧ a.right = b.right ∧
        a.mask = b.mask ∧ a.step = b.step)) := by
  unfold CircleRange.rangeEqual
  cases ha : a.isempty <;> cases hb : b.isempty <;> simp [ha, hb, and_assoc]

/-- C9: after `partitionPrepend(vertex, part)` the partition's `startNode` is
`vertex`, `vertex`'s `next` field is the previous `startNode`, and `stopNode`
becomes `vertex` exactly when it was previously null, staying unchanged
otherwise. -/
theorem partitionPrepend_vertex_spec (vertex : Nat) (nexts : Nat → Option Nat)
    (part : Partition) :
    (partitionPrepend vertex nexts part).2.startNode = some vertex ∧
    (partitionPrepend vertex nexts part).1 vertex = part.startNode ∧
    (partitionPrepend vertex nexts part).2.stopNode =
      (if part.stopNode = none then some vertex else part.stopNode) :=
  ⟨rfl, by simp [partitionPrepend], rfl⟩

/-- C10: the partition-to-partition `partitionPrepend` unconditionally
dereferences `head.stopNode`: the embedding returns `none` (the null
dereference) exactly when `head.stopNode` is null, and under the precondition
that `head` is non-empty it links `head`'s chain in front of `part`'s previous
chain. -/
theorem partitionPrependWhole_spec (head : Partition) (nexts : Nat → Option Nat)
    (part : Partition) :
    (head.stopNode = none → partitionPrependWhole head nexts part = none) ∧
    (∀ sn, head.stopNode = some sn →
      partitionPrependWhole head nexts part =
        some (fun v => if v = sn then part.startNode else nexts v,
          { startNode := head.startNode,
            stopNode := if part.stopNode = none then head.stopNode else part.stopNode,
            isDirty := part.isDirty })) := by
  constructor
  · intro h
    unfold partitionPrependWhole
    rw [h]
  · intro sn h
    unfold partitionPrependWhole
    rw [h]

/-- Witness for C10: the null `stopNode` case and a non-null case with
`head = (some 1, some 2)`, `part = (some 3, none)`. -/
theorem partitionPrependWhole_spec_witness :
    partitionPrependWhole ⟨some 1, none, false⟩ (fun _ => none) ⟨some 3, none, false⟩ = none ∧
    partitionPrependWhole ⟨some 1, some 2, false⟩ (fun _ => none) ⟨some 3, none, false⟩ =
      some (fun v => if v = 2 then some 3 else none,
        { startNode := some 1, stopNode := some 2, isDirty := false }) :=
  ⟨(partitionPrependWhole_spec ⟨some 1, none, false⟩ (fun _ => none) ⟨some 3, none, false⟩).1 rfl,
   (partitionPrependWhole_spec ⟨some 1, some 2, false⟩ (fun _ => none)
      ⟨some 3, none, false⟩).2 2 rfl⟩

theorem pushForwardBinary_fst (opc : OpCode) (in1 in2 : CircleRange)
    (inSize outSize maxStep : Nat) :
    (pushForwardBinary opc in1 in2 inSize outSize maxStep).1 = true := by
  unfold pushForwardBinary
  split
  · rfl
  · cases opc <;> (try rfl) <;> split_ifs <;> rfl

theorem pushForwardBinary_nonlinear (opc : OpCode) (in1 in2 : CircleRange)
    (inSize outSize maxStep : Nat) (h1 : in1.isempty = false) (h2 : in2.isempty = false)
    (h3 : isLinearBinary opc = false) :
    (pushForwardBinary opc in1 in2 inSize outSize maxStep).2 = CircleRange.setFull outSize := by
  unfold pushForwardBinary
  rw [h1, h2]
  simp only [Bool.or_self, Bool.false_eq_true, if_false]
  cases opc <;> first
    | rfl
    | exact absurd h3 (by decide)

theorem pushForwardBinary_mult_eq (in1 in2 : CircleRange) (inSize outSize maxStep : Nat)
    (he : (in1.isempty || in2.isempty) = false) :
    pushForwardBinary OpCode.INT_MULT in1 in2 inSize outSize maxStep =
      (if in2.isSingle then
        if 0 < in1.step * in2.left ∧ (in1.mask + 1) % (in1.step * in2.left) = 0 ∧
            in1.step * in2.left ≤ maxStep then
          (true, { left := (in1.left * in2.left) &&& in1.mask,
                   right := (in1.right * in2.left) &&& in1.mask,
                   mask := in1.mask, isempty := false, step := in1.step * in2.left })
        else (true, CircleRange.setFull outSize)
      else (true, CircleRange.setFull outSize)) := by
  unfold pushForwardBinary
  rw [he]
  rfl

theorem pushForwardBinary_mult_stride (in1 in2 : CircleRange)
    (inSize outSize maxStep : Nat) :
    (pushForwardBinary OpCode.INT_MULT in1 in2 inSize outSize maxStep).2.isempty = true ∨
    (pushForwardBinary OpCode.INT_MULT in1 in2 inSize outSize maxStep).2.step ≤ maxStep ∨
    (pushForwardBinary OpCode.INT_MULT in1 in2 inSize outSize maxStep).2 =
      CircleRange.setFull outSize := by
  by_cases he : (in1.isempty || in2.isempty) = true
  · left
    unfold pushForwardBinary
    rw [if_pos he]
    rfl
  · have he' : (in1.isempty || in2.isempty) = false := by simpa using he
    rw [pushForwardBinary_mult_eq in1 in2 inSize outSize maxStep he']
    split_ifs with hs hc
    · exact Or.inr (Or.inl hc.2.2)
    · exact Or.inr (Or.inr rfl)
    · exact Or.inr (Or.inr rfl)

/-- C7: `pushForwardBinary` never fails: the status is true for every opcode
and every pair of input ranges; for non-empty inputs every non-linear opcode
yields the full range of the output size, and the multiplicative opcode either
keeps its stride widening bounded by `maxStep` or falls back to the full
range. -/
theorem pushForwardBinary_never_fails (opc : OpCode) (in1 in2 : CircleRange)
    (inSize outSize maxStep : Nat) :
    (pushForwardBinary opc in1 in2 inSize outSize maxStep).1 = true ∧
    (in1.isempty = false → in2.isempty = false → isLinearBinary opc = false →
      (pushForwardBinary opc in1 in2 inSize outSize maxStep).2 =
        CircleRange.setFull outSize) ∧
    (opc = OpCode.INT_MULT →
      ((pushForwardBinary opc in1 in2 inSize outSize maxStep).2.isempty = true ∨
       (pushForwardBinary opc in1 in2 inSize outSize maxStep).2.step ≤ maxStep ∨
       (pushForwardBinary opc in1 in2 inSize outSize maxStep).2 =
         CircleRange.setFull outSize)) := by
  refine ⟨pushForwardBinary_fst opc in1 in2 inSize outSize maxStep, ?_, ?_⟩
  · exact fun h1 h2 h3 => pushForwardBinary_nonlinear opc in1 in2 inSize outSize maxStep h1 h2 h3
  · intro hm
    subst hm
    exact pushForwardBinary_mult_stride in1 in2 inSize outSize maxStep

/-- Witness for C7 at the non-linear opcode `COPY` and at `INT_MULT`, on the
concrete non-empty ranges `[0,2)` and `[1,2)` over mask 3. -/
theorem pushForwardBinary_never_fails_witness :
    (pushForwardBinary OpCode.COPY ⟨0, 2, 3, false, 1⟩ ⟨1, 2, 3, false, 1⟩ 1 1 2).1 = true ∧
    (pushForwardBinary OpCode.COPY ⟨0, 2, 3, false, 1⟩ ⟨1, 2, 3, false, 1⟩ 1 1 2).2 =
      CircleRange.setFull 1 ∧
    ((pushForwardBinary OpCode.INT_MULT ⟨0, 2, 3, false, 1⟩
        ⟨1, 2, 3, false, 1⟩ 1 1 2).2.isempty = true ∨
     (pushForwardBinary OpCode.INT_MULT ⟨0, 2, 3, false, 1⟩
        ⟨1, 2, 3, false, 1⟩ 1 1 2).2.step ≤ 2 ∨
     (pushForwardBinary OpCode.INT_MULT ⟨0, 2, 3, false, 1⟩
        ⟨1, 2, 3, false, 1⟩ 1 1 2).2 = CircleRange.setFull 1) :=
  ⟨(pushForwardBinary_never_fails OpCode.COPY ⟨0, 2, 3, false, 1⟩ ⟨1, 2, 3, false, 1⟩ 1 1 2).1,
   (pushForwardBinary_never_fails OpCode.COPY ⟨0, 2, 3, false, 1⟩
      ⟨1, 2, 3, false, 1⟩ 1 1 2).2.1 rfl rfl rfl,
   (pushForwardBinary_never_fails OpCode.INT_MULT ⟨0, 2, 3, false, 1⟩
      ⟨1, 2, 3, false, 1⟩ 1 1 2).2.2 rfl⟩

namespace CircleRange

theorem circDist_lt (cr : CircleRange) (n : Nat) : circDist cr n < 2 ^ n :=
  Nat.mod_lt _ (Nat.two_pow_pos n)

theorem left_add_circDist (cr : CircleRange) (n : Nat) (wf : WellFormed cr n) :
    (cr.left + circDist cr n) % 2 ^ n = cr.right := by
  unfold circDist
  rw [Nat.add_mod_mod]
  have h1 : cr.left < 2 ^ n := wf.left_lt
  have h2 : cr.left + (2 ^ n + cr.right - cr.left) = 2 ^ n + cr.right := by omega
  rw [h2, Nat.add_mod_left]
  exact Nat.mod_eq_of_lt wf.right_lt

theorem iterCount_mul_step (cr : CircleRange) (n : Nat) (wf : WellFormed cr n) :
    iterCount cr n * cr.step = if circDist cr n = 0 then 2 ^ n else circDist cr n := by
  unfold iterCount
  split
  · exact Nat.div_mul_cancel wf.step_dvd_mod
  · exact Nat.div_mul_cancel wf.step_dvd_dist

theorem iterCount_pos (cr : CircleRange) (n : Nat) (wf : WellFormed cr n) :
    1 ≤ iterCount cr n := by
  unfold iterCount
  split
  · rw [Nat.le_div_iff_mul_le wf.step_pos, Nat.one_mul]
    exact Nat.le_of_dvd (Nat.two_pow_pos n) wf.step_dvd_mod
  · rename_i h
    rw [Nat.le_div_iff_mul_le wf.step_pos, Nat.one_mul]
    exact Nat.le_of_dvd (Nat.pos_of_ne_zero h) wf.step_dvd_dist

theorem iterCount_mul_le (cr : CircleRange) (n : Nat) (wf : WellFormed cr n) :
    iterCount cr n * cr.step ≤ 2 ^ n := by
  rw [iterCount_mul_step cr n wf]
  split
  · exact Nat.le_refl _
  · exact Nat.le_of_lt (circDist_lt cr n)

theorem left_add_count_step (cr : CircleRange) (n : Nat) (wf : WellFormed cr n) :
    (cr.left + iterCount cr n * cr.step) % 2 ^ n = cr.right := by
  rw [iterCount_mul_step cr n wf]
  split
  · rename_i h
    have hd := left_add_circDist cr n wf
    rw [h, Nat.add_zero, Nat.mod_eq_of_lt wf.left_lt] at hd
    rw [Nat.add_mod_right, Nat.mod_eq_of_lt wf.left_lt]
    exact hd
  · exact left_add_circDist cr n wf

theorem mid_ne_right (cr : CircleRange) (n : Nat) (wf : WellFormed cr n)
    (i : Nat) (h1 : 1 ≤ i) (h2 : i < iterCount cr n) :
    (cr.left + i * cr.step) % 2 ^ n ≠ cr.right := by
  intro hEq
  have hD := left_add_circDist cr n wf
  have hMod : (cr.left + i * cr.step) % 2 ^ n = (cr.left + circDist cr n) % 2 ^ n := by
    rw [hEq, hD]
  have hcancel : i * cr.step % 2 ^ n = circDist cr n % 2 ^ n :=
    Nat.ModEq.add_left_cancel' cr.left hMod
  have hNle := iterCount_mul_le cr n wf
  have hi_lt : i * cr.step < 2 ^ n := by
    have := (Nat.mul_lt_mul_right wf.step_pos).mpr h2
    omega
  have hD_lt : circDist cr n < 2 ^ n := circDist_lt cr n
  rw [Nat.mod_eq_of_lt hi_lt, Nat.mod_eq_of_lt hD_lt] at hcancel
  by_cases hD0 : circDist cr n = 0
  · rw [hD0] at hcancel
    rcases Nat.mul_eq_zero.mp hcancel with h | h
    · omega
    · have := wf.step_pos
      omega
  · have hNs : iterCount cr n * cr.step = circDist cr n := by
      rw [iterCount_mul_step cr n wf, if_neg hD0]
    have : i = iterCount cr n :=
      Nat.eq_of_mul_eq_mul_right wf.step_pos (hcancel.trans hNs.symm)
    omega

theorem iter_inj (cr : CircleRange) (n : Nat) (wf : WellFormed cr n)
    (i j : Nat) (hi : i < iterCount cr n) (hj : j < iterCount cr n)
    (hEq : (cr.left + i * cr.step) % 2 ^ n = (cr.left + j * cr.step) % 2 ^ n) : i = j := by
  have hcancel : i * cr.step % 2 ^ n = j * cr.step % 2 ^ n :=
    Nat.ModEq.add_left_cancel' cr.left hEq
  have hNle := iterCount_mul_le cr n wf
  have hi_lt : i * cr.step < 2 ^ n := by
    have := (Nat.mul_lt_mul_right wf.step_pos).mpr hi
    omega
  have hj_lt : j * cr.step < 2 ^ n := by
    have := (Nat.mul_lt_mul_right wf.step_pos).mpr hj
    omega
  rw [Nat.mod_eq_of_lt hi_lt, Nat.mod_eq_of_lt hj_lt] at hcancel
  exact Nat.eq_of_mul_eq_mul_right wf.step_pos hcancel

theorem iterList_loop (cr : CircleRange) (n : Nat) (wf : WellFormed cr n) :
    ∀ k j fuel, 1 ≤ k → k ≤ fuel → j + k = iterCount cr n →
      cr.iterList ((cr.left + j * cr.step) % 2 ^ n) fuel =
        (List.range k).map (fun i => (cr.left + (j + i) * cr.step) % 2 ^ n) := by
  intro k
  induction k with
  | zero => intro j fuel h1 _ _; omega
  | succ k ih =>
    intro j fuel _ hfuel hsum
    obtain ⟨f, rfl⟩ : ∃ f, fuel = f + 1 := ⟨fuel - 1, by omega⟩
    have hfst : (cr.getNext ((cr.left + j * cr.step) % 2 ^ n)).1 =
        (cr.left + (j + 1) * cr.step) % 2 ^ n := by
      rw [cr.getNext_fst n wf.mask_eq wf.n_le, Nat.mod_add_mod]
      congr 1
      ring
    by_cases hk0 : k = 0
    · subst hk0
      have hhit : (cr.getNext ((cr.left + j * cr.step) % 2 ^ n)).1 = cr.right := by
        rw [hfst]
        have hj1 : j + 1 = iterCount cr n := hsum
        rw [hj1]
        exact left_add_count_step cr n wf
      have hflag : (cr.getNext ((cr.left + j * cr.step) % 2 ^ n)).2 = false := by
        show ((cr.getNext ((cr.left + j * cr.step) % 2 ^ n)).1 != cr.right) = false
        rw [hhit]
        simp
      simp only [iterList, hflag, Bool.false_eq_true, if_false]
      rfl
    · have hne : (cr.getNext ((cr.left + j * cr.step) % 2 ^ n)).1 ≠ cr.right := by
        rw [hfst]
        exact mid_ne_right cr n wf (j + 1) (by omega) (by omega)
      have hflag : (cr.getNext ((cr.left + j * cr.step) % 2 ^ n)).2 = true := by
        show ((cr.getNext ((cr.left + j * cr.step) % 2 ^ n)).1 != cr.right) = true
        exact bne_iff_ne.mpr hne
      simp only [iterList, hflag, if_true]
      rw [hfst, ih (j + 1) f (by omega) (by omega) (by omega)]
      rw [List.range_succ_eq_map, List.map_cons, List.map_map]
      refine List.cons_eq_cons.mpr ⟨rfl, ?_⟩
      apply List.map_congr_left
      intro i _
      simp only [Function.comp_apply, Nat.succ_eq_add_one]
      congr 1
      ring

end CircleRange

namespace CircleRange

theorem getSize_eq_iterCount (cr : CircleRange) (n : Nat) (wf : WellFormed cr n)
    (hne : cr.isempty = false) : cr.getSize = iterCount cr n := by
  unfold getSize iterCount circDist
  rw [hne, cr.mask_add_one n wf.mask_eq]
  simp

theorem getMin_eq_start (cr : CircleRange) (n : Nat) (wf : WellFormed cr n) :
    (cr.left + 0 * cr.step) % 2 ^ n = cr.getMin := by
  show (cr.left + 0 * cr.step) % 2 ^ n = cr.left
  rw [Nat.zero_mul, Nat.add_zero]
  exact Nat.mod_eq_of_lt wf.left_lt

end CircleRange

/-- C3: for every non-empty well-formed `CircleRange`, the documented iteration
protocol starting from `getMin()` yields exactly `getSize()` distinct values
(for any fuel of at least `getSize()` body executions), the first of which is
`getMin()`, and `(getMax() + step) mod (mask+1)` equals `right`. -/
theorem iteration_yields_getSize (cr : CircleRange) (n : Nat)
    (wf : CircleRange.WellFormed cr n) (hne : cr.isempty = false)
    (fuel : Nat) (hfuel : cr.getSize ≤ fuel) :
    (cr.iterList cr.getMin fuel).length = cr.getSize ∧
    (cr.iterList cr.getMin fuel).Nodup ∧
    (cr.iterList cr.getMin fuel).head? = some cr.getMin ∧
    (cr.getMax + cr.step) % (cr.mask + 1) = cr.right := by
  have hsize := CircleRange.getSize_eq_iterCount cr n wf hne
  have harg := CircleRange.getMin_eq_start cr n wf
  have hlist := CircleRange.iterList_loop cr n wf (CircleRange.iterCount cr n) 0 fuel
    (CircleRange.iterCount_pos cr n wf) (by omega) (by omega)
  rw [harg] at hlist
  simp only [Nat.zero_add] at hlist
  refine ⟨?_, ?_, ?_, ?_⟩
  · rw [hlist, List.length_map, List.length_range, hsize]
  · rw [hlist]
    refine List.Nodup.map_on ?_ (List.nodup_range _)
    intro i hi j hj hEq
    exact CircleRange.iter_inj cr n wf i j (List.mem_range.mp hi) (List.mem_range.mp hj) hEq
  · rw [hlist, List.head?_map]
    obtain ⟨m, hm⟩ : ∃ m, CircleRange.iterCount cr n = m + 1 :=
      ⟨CircleRange.iterCount cr n - 1, by have := CircleRange.iterCount_pos cr n wf; omega⟩
    rw [hm, List.range_succ_eq_map]
    simp only [List.head?_cons, Option.map_some']
    rw [CircleRange.getMin_eq_start cr n wf]
  · have h2 : cr.mask + 1 = 2 ^ n := cr.mask_add_one n wf.mask_eq
    unfold CircleRange.getMax
    rw [h2, wf.mask_eq, Nat.and_pow_two_sub_one_eq_mod,
      Nat.mod_mod_of_dvd _ (Nat.pow_dvd_pow 2 wf.n_le), Nat.mod_add_mod]
    have hstep_le : cr.step ≤ 2 ^ 64 :=
      Nat.le_trans (Nat.le_of_dvd (Nat.two_pow_pos n) wf.step_dvd_mod)
        (Nat.pow_le_pow_right (by norm_num) wf.n_le)
    have hlit : (2 : Nat) ^ 64 = 18446744073709551616 := by norm_num
    have h3 : 2 ^ 64 + cr.right - cr.step + cr.step = 2 ^ 64 + cr.right := by omega
    rw [h3]
    have hn := wf.n_le
    have h4 : (2 : Nat) ^ 64 = 2 ^ n * 2 ^ (64 - n) := by
      rw [← pow_add]
      congr 1
      omega
    rw [h4, Nat.mul_add_mod]
    exact Nat.mod_eq_of_lt wf.right_lt

theorem wfRange3 : CircleRange.WellFormed ⟨2, 8, 15, false, 2⟩ 4 :=
  ⟨by norm_num, by norm_num, by norm_num, by norm_num, by norm_num, by norm_num, by norm_num⟩

/-- Witness for C3 at the range `[2,8) mask=15 step=2`, whose values are
2, 4, 6. -/
theorem iteration_yields_getSize_witness :
    ((⟨2, 8, 15, false, 2⟩ : CircleRange).iterList
        (CircleRange.getMin ⟨2, 8, 15, false, 2⟩) 3).length =
      CircleRange.getSize ⟨2, 8, 15, false, 2⟩ ∧
    ((⟨2, 8, 15, false, 2⟩ : CircleRange).iterList
        (CircleRange.getMin ⟨2, 8, 15, false, 2⟩) 3).Nodup ∧
    ((⟨2, 8, 15, false, 2⟩ : CircleRange).iterList
        (CircleRange.getMin ⟨2, 8, 15, false, 2⟩) 3).head? =
      some (CircleRange.getMin ⟨2, 8, 15, false, 2⟩) ∧
    (CircleRange.getMax ⟨2, 8, 15, false, 2⟩ + (2 : Nat)) % (15 + 1) = 8 :=
  iteration_yields_getSize ⟨2, 8, 15, false, 2⟩ 4 wfRange3 rfl 3 (by decide)

/-- C4 (amended): under the documented do-while protocol the loop body always
executes at least once — in particular an empty range does not iterate zero
times, its behaviour being governed by its meaningless fields, so callers must
test `isEmpty()` separately — while a full range iterates exactly
`(mask+1)/step` times. -/
theorem iterate_protocol_count (cr : CircleRange) (n : Nat)
    (wf : CircleRange.WellFormed cr n) :
    (∀ val fuel, 1 ≤ fuel → 1 ≤ (cr.iterList val fuel).length) ∧
    (cr.isFull = true → ∀ fuel, (cr.mask + 1) / cr.step ≤ fuel →
      (cr.iterList cr.getMin fuel).length = (cr.mask + 1) / cr.step) := by
  constructor
  · intro val fuel h
    obtain ⟨f, rfl⟩ : ∃ f, fuel = f + 1 := ⟨fuel - 1, by omega⟩
    simp only [CircleRange.iterList]
    split <;> simp
  · intro hfull fuel hfuel
    have hconj : cr.isempty = false ∧ cr.step = 1 ∧ cr.left = cr.right := by
      have h := hfull
      unfold CircleRange.isFull at h
      simp only [Bool.and_eq_true, Bool.not_eq_true', beq_iff_eq] at h
      exact ⟨h.1.1, h.1.2, h.2⟩
    have h2 : cr.mask + 1 = 2 ^ n := cr.mask_add_one n wf.mask_eq
    have hD : CircleRange.circDist cr n = 0 := by
      unfold CircleRange.circDist
      have h1 := wf.left_lt
      have hlr := hconj.2.2
      have h5 : 2 ^ n + cr.right - cr.left = 2 ^ n := by omega
      rw [h5, Nat.mod_self]
    have hN : CircleRange.iterCount cr n = (cr.mask + 1) / cr.step := by
      unfold CircleRange.iterCount
      rw [if_pos hD, h2]
    have harg := CircleRange.getMin_eq_start cr n wf
    have hlist := CircleRange.iterList_loop cr n wf (CircleRange.iterCount cr n) 0 fuel
      (CircleRange.iterCount_pos cr n wf) (by omega) (by omega)
    rw [harg] at hlist
    rw [hlist, List.length_map, List.length_range, hN]

theorem wfFull3 : CircleRange.WellFormed ⟨0, 0, 3, false, 1⟩ 2 :=
  ⟨by norm_num, by norm_num, by norm_num, by norm_num, by norm_num, by norm_num, by norm_num⟩

/-- Witness for C4 at the full range `[0,0) mask=3 step=1` (which iterates
`(3+1)/1 = 4` times) and the at-least-once bound at fuel 1. -/
theorem iterate_protocol_count_witness :
    1 ≤ ((⟨0, 0, 3, false, 1⟩ : CircleRange).iterList 5 1).length ∧
    ((⟨0, 0, 3, false, 1⟩ : CircleRange).iterList
        (CircleRange.getMin ⟨0, 0, 3, false, 1⟩) 4).length = (3 + 1) / 1 :=
  ⟨(iterate_protocol_count ⟨0, 0, 3, false, 1⟩ 2 wfFull3).1 5 1 (by decide),
   (iterate_protocol_count ⟨0, 0, 3, false, 1⟩ 2 wfFull3).2 rfl 4 (by decide)⟩

/-- C4 counterexample: the empty `CircleRange` whose meaningless fields are
`left=0, right=0, mask=3, step=1` executes the do-while body of the documented
iteration protocol four times, not zero times. -/
theorem empty_range_iterates_nonzero :
    CircleRange.isEmpty ⟨0, 0, 3, true, 1⟩ = true ∧
    ((⟨0, 0, 3, true, 1⟩ : CircleRange).iterList
        (CircleRange.getMin ⟨0, 0, 3, true, 1⟩) 10).length ≠ 0 := by
  constructor
  · rfl
  · decide
